import Mathlib

set_option maxRecDepth 4000

/-!
Verification of a minimal content-addressed version-control object store
(object database, tree codec, commit codec, pack decoder, clone client).
Byte sequences are modelled as `List Nat` (each element a `u8` value),
machine integers as `Nat` with explicit `% 2 ^ 32` where `u32` wrapping
matters, fallible operations as `Except`/`Option`, and filesystem or
network effects as explicit state (the object store is a map from hex
digest to the byte stream that passes through the zlib codec, since the
zlib compress/decompress pair of the external library is a faithful
inverse).  A Rust slice-index panic is modelled as a distinct error
value, since it aborts the surrounding computation without a result.
-/

namespace GitSpec

/-- ASCII bytes of a string literal (used only for ASCII text). -/
def strBytes (s : String) : List Nat := s.data.map Char.toNat

/-- Lowercase hex digit for a value below 16, as in the `hex` crate. -/
def hexDigit (n : Nat) : Nat := if n < 10 then 48 + n else 87 + n

/-- `hex::encode`: each byte becomes two lowercase hex digits, high nibble first. -/
def hexEncode (l : List Nat) : List Nat :=
  (l.map (fun b => [hexDigit (b / 16), hexDigit (b % 16)])).flatten

/-- A UTF-8 continuation byte (`0x80..=0xBF`). -/
def utf8Cont (b : Nat) : Bool := 128 ≤ b && b ≤ 191

/-- One multi-byte UTF-8 sequence led by the non-ASCII byte `b` (RFC 3629
ranges, as enforced by `std::str::from_utf8`): checks the continuation
bytes at the front of `rest` and returns the suffix after them, or `none`
when the sequence is malformed. -/
def utf8Seq (b : Nat) (rest : List Nat) : Option (List Nat) :=
  if 194 ≤ b && b ≤ 223 then
    match rest with
    | c :: r => if utf8Cont c then some r else none
    | [] => none
  else if b = 224 then
    match rest with
    | c1 :: c2 :: r => if (160 ≤ c1 && c1 ≤ 191) && utf8Cont c2 then some r else none
    | _ => none
  else if (225 ≤ b && b ≤ 236) || b = 238 || b = 239 then
    match rest with
    | c1 :: c2 :: r => if utf8Cont c1 && utf8Cont c2 then some r else none
    | _ => none
  else if b = 237 then
    match rest with
    | c1 :: c2 :: r => if (128 ≤ c1 && c1 ≤ 159) && utf8Cont c2 then some r else none
    | _ => none
  else if b = 240 then
    match rest with
    | c1 :: c2 :: c3 :: r =>
      if (144 ≤ c1 && c1 ≤ 191) && utf8Cont c2 && utf8Cont c3 then some r else none
    | _ => none
  else if 241 ≤ b && b ≤ 243 then
    match rest with
    | c1 :: c2 :: c3 :: r =>
      if utf8Cont c1 && utf8Cont c2 && utf8Cont c3 then some r else none
    | _ => none
  else if b = 244 then
    match rest with
    | c1 :: c2 :: c3 :: r =>
      if (128 ≤ c1 && c1 ≤ 143) && utf8Cont c2 && utf8Cont c3 then some r else none
    | _ => none
  else none

/-- Validation loop of `std::str::from_utf8` with a fuel argument for
structural recursion: every step consumes at least one byte, so fuel
equal to the input length is always enough and the fuel-exhausted branch
is unreachable (`utf8Valid` below supplies that fuel). -/
def utf8ValidGo : Nat → List Nat → Bool
  | _, [] => true
  | 0, _ :: _ => false
  | fuel + 1, b :: rest =>
    if b ≤ 127 then utf8ValidGo fuel rest
    else
      match utf8Seq b rest with
      | some r => utf8ValidGo fuel r
      | none => false

/-- Validity check performed by `std::str::from_utf8` (RFC 3629 encoding). -/
def utf8Valid (l : List Nat) : Bool := utf8ValidGo l.length l

/-- Value of an ASCII decimal digit byte, as used by `usize::from_str`. -/
def digitVal (b : Nat) : Option Nat :=
  if 48 ≤ b ∧ b ≤ 57 then some (b - 48) else none

/-- Digit-accumulation loop of `usize::from_str` (base 10, checked accumulation:
a step that would exceed the 64-bit range is an overflow error). -/
def parseDigits : List Nat → Nat → Option Nat
  | [], acc => some acc
  | b :: r, acc =>
    match digitVal b with
    | some d => if acc * 10 + d < 2 ^ 64 then parseDigits r (acc * 10 + d) else none
    | none => none

/-- `usize::from_str` accepts one optional leading `+` sign. -/
def stripPlusSign (l : List Nat) : List Nat :=
  match l with
  | [] => []
  | b :: r => if b = 43 then r else b :: r

/-- `usize::from_str` on the bytes of a string: optional `+`, then one or more
ASCII digits, rejecting the empty digit string and 64-bit overflow. -/
def parseUsize (l : List Nat) : Option Nat :=
  if (stripPlusSign l).isEmpty then none else parseDigits (stripPlusSign l) 0

/-- ASCII decimal rendering of a natural number (`format!` / `to_string`). -/
def toDecimal (n : Nat) : List Nat :=
  if n = 0 then [48] else (Nat.digits 10 n).reverse.map (· + 48)

/-- `str::split_once` at a separator byte: split at the FIRST occurrence. -/
def splitOnceAt (sep : Nat) : List Nat → Option (List Nat × List Nat)
  | [] => none
  | b :: r =>
    if b = sep then some ([], r)
    else
      match splitOnceAt sep r with
      | some (pre, post) => some (b :: pre, post)
      | none => none

/-- `str::rsplit_once` at a separator byte: split at the LAST occurrence,
returning (text before it, text after it). -/
def rsplitOnceAt (sep : Nat) : List Nat → Option (List Nat × List Nat)
  | [] => none
  | b :: r =>
    match rsplitOnceAt sep r with
    | some (pre, post) => some (b :: pre, post)
    | none => if b = sep then some ([], r) else none

/-- Error kinds of the embedded operations.  Constructors tagged
`OutOfBounds` model Rust slice-index panics; the others model `anyhow`
errors returned through `Result`. -/
inductive GitErr
  | utf8Error
  | invalidHeaderFormat
  | unknownKind
  | parseIntError
  | notFound
  | invalidObjectKind
  | invalidEntryHeader
  | indexOutOfBounds
  | unknownMode
  | forbiddenPackType
  | reservedPackType
  | unreachableValue
  | missingHeadRef
deriving DecidableEq, Repr

/-- `ObjectKind` from `object.rs`. -/
inductive ObjectKind
  | Blob
  | Commit
  | Tree
deriving DecidableEq, Repr

/-- `ObjectKind::as_str` (as bytes). -/
def ObjectKind.asBytes : ObjectKind → List Nat
  | .Blob => strBytes "blob"
  | .Commit => strBytes "commit"
  | .Tree => strBytes "tree"

/-- `FromStr for ObjectKind` (on the bytes of the string). -/
def kindFromBytes (l : List Nat) : Except GitErr ObjectKind :=
  if l = strBytes "blob" then .ok .Blob
  else if l = strBytes "commit" then .ok .Commit
  else if l = strBytes "tree" then .ok .Tree
  else .error .unknownKind

/-- `ObjectHeader` from `object.rs`. -/
structure ObjectHeader where
  kind : ObjectKind
  data_length : Nat
deriving DecidableEq, Repr

/-- `TryFrom<Vec<u8>> for ObjectHeader`: UTF-8 check, split at the last
space, parse the kind and the decimal length. -/
def ObjectHeader.tryFromBytes (l : List Nat) : Except GitErr ObjectHeader :=
  if utf8Valid l then
    match rsplitOnceAt 32 l with
    | none => .error .invalidHeaderFormat
    | some (kindBytes, lenBytes) =>
      match kindFromBytes kindBytes with
      | .error e => .error e
      | .ok k =>
        match parseUsize lenBytes with
        | none => .error .parseIntError
        | some n => .ok ⟨k, n⟩
  else .error .utf8Error

/-- `ObjectHeader::as_str`: `"<kind> <length>\0"` as bytes. -/
def ObjectHeader.asBytes (h : ObjectHeader) : List Nat :=
  h.kind.asBytes ++ [32] ++ toDecimal h.data_length ++ [0]

/-- `Object` from `object.rs`: hex digest, header, payload bytes. -/
structure Object where
  hash : String
  header : ObjectHeader
  data : List Nat
deriving DecidableEq, Repr

/-- The object database: the digest-derived path maps to the byte stream
passing through the zlib codec (the path split of `Object::path` is an
injective function of the hex digest, so the digest itself is the key;
the zlib compress/decompress pair of the `flate2` library is modelled as
a faithful inverse, so the stored value is the uncompressed stream). -/
def Store := String → Option (List Nat)

/-- `Object::write`: store the zlib stream of `header.as_str()` bytes
followed by the payload bytes at the digest-derived path. -/
def Object.write (st : Store) (o : Object) : Store :=
  fun h => if h = o.hash then some (o.header.asBytes ++ o.data) else st h

/-- Parsing step of `Object::read` after zlib decompression: the header is
everything before the first NUL (the NUL is consumed), the payload is the
remainder, and the `hash` field is the argument digest, stored verbatim. -/
def Object.readBytes (hash : String) (buf : List Nat) : Except GitErr Object :=
  match ObjectHeader.tryFromBytes (buf.takeWhile (fun b => b ≠ 0)) with
  | .error e => .error e
  | .ok header => .ok ⟨hash, header, (buf.dropWhile (fun b => b ≠ 0)).drop 1⟩

/-- `Object::read`: open the digest-derived path (missing file is an error),
decompress, and parse. -/
def Object.read (st : Store) (hash : String) : Except GitErr Object :=
  match st hash with
  | none => .error .notFound
  | some buf => Object.readBytes hash buf

/-- `TreeEntry` from `tree.rs`: `mode` and `name` are the bytes of the two
Rust `String` fields, `reference` is the raw `Vec<u8>`. -/
structure TreeEntry where
  mode : List Nat
  name : List Nat
  reference : List Nat
deriving DecidableEq, Repr

/-- `Tree` from `tree.rs`. -/
structure Tree where
  entries : List TreeEntry
deriving DecidableEq, Repr

/-- One entry of `Tree::to_bytes`: mode, space, name, NUL, reference bytes. -/
def TreeEntry.toBytes (e : TreeEntry) : List Nat :=
  e.mode ++ [32] ++ e.name ++ [0] ++ e.reference

/-- `Tree::to_bytes`: the serialized entries concatenated with no separator. -/
def Tree.to_bytes (t : Tree) : List Nat :=
  (t.entries.map TreeEntry.toBytes).flatten

/-- One iteration of the parsing loop in `TryFrom<Object> for Tree`:
locate the first NUL (no NUL left means the loop ends, `ok none`),
require the bytes before it to be UTF-8, split them at the first space
into mode and name, take the 20 bytes after the NUL as the reference
(fewer than 20 available is a slice-index panic), and return the entry
together with the bytes after it. -/
def treeStep (data : List Nat) : Except GitErr (Option (TreeEntry × List Nat)) :=
  if (data.takeWhile (fun b => b ≠ 0)).length = data.length then .ok none
  else if utf8Valid (data.takeWhile (fun b => b ≠ 0)) then
    match splitOnceAt 32 (data.takeWhile (fun b => b ≠ 0)) with
    | none => .error .invalidEntryHeader
    | some (mode, name) =>
      if (data.drop ((data.takeWhile (fun b => b ≠ 0)).length + 1)).length < 20 then
        .error .indexOutOfBounds
      else
        .ok (some (⟨mode, name,
            (data.drop ((data.takeWhile (fun b => b ≠ 0)).length + 1)).take 20⟩,
          (data.drop ((data.takeWhile (fun b => b ≠ 0)).length + 1)).drop 20))
  else .error .utf8Error

/-- Parsing loop of `TryFrom<Object> for Tree`, with a fuel argument for
structural recursion (each iteration consumes at least 21 bytes, so any
fuel above the input length is enough and the fuel-exhausted branch is
unreachable; `parseTreeData` below supplies such a fuel). -/
def parseTreeGo : Nat → List Nat → Except GitErr (List TreeEntry)
  | 0, _ => .error .indexOutOfBounds
  | fuel + 1, data =>
    match treeStep data with
    | .error e => .error e
    | .ok none => .ok []
    | .ok (some (e, rest)) =>
      match parseTreeGo fuel rest with
      | .error e2 => .error e2
      | .ok entries => .ok (e :: entries)

/-- The parsing loop of `TryFrom<Object> for Tree` at sufficient fuel. -/
def parseTreeData (data : List Nat) : Except GitErr (List TreeEntry) :=
  parseTreeGo (data.length + 1) data

/-- `TryFrom<Object> for Tree`: require kind `Tree`, then parse the payload. -/
def Tree.tryFromObject (o : Object) : Except GitErr Tree :=
  if o.header.kind = ObjectKind.Tree then
    match parseTreeData o.data with
    | .error e => .error e
    | .ok entries => .ok ⟨entries⟩
  else .error .invalidObjectKind

/-- The filesystem operation `Tree::checkout` performs for one entry. -/
inductive FsAction
  | mkDirRecurse (name : List Nat) (childHashHex : List Nat)
  | createSymlink (target : List Nat) (name : List Nat)
  | writeFile (name : List Nat) (executable : Bool) (blobHashHex : List Nat)
deriving DecidableEq, Repr

/-- Per-entry dispatch of `Tree::checkout` on the mode string: `40000`
creates a directory and recurses into the child tree read by the hex of
the reference; `120000` calls `create_symlink` with target
`Path::new(&hex::encode(&entry.reference))`, the HEX ENCODING of the
stored reference bytes; `100644`/`100755` write the blob read by the hex
of the reference; anything else is an error. -/
def checkoutEntryAction (e : TreeEntry) : Except GitErr FsAction :=
  if e.mode = strBytes "40000" then
    .ok (.mkDirRecurse e.name (hexEncode e.reference))
  else if e.mode = strBytes "120000" then
    .ok (.createSymlink (hexEncode e.reference) e.name)
  else if e.mode = strBytes "100644" ∨ e.mode = strBytes "100755" then
    .ok (.writeFile e.name (e.mode = strBytes "100755") (hexEncode e.reference))
  else .error .unknownMode

/-- `Author` from `commit.rs`; `time` is the `SystemTime` as seconds since
the UNIX epoch (`duration_since(UNIX_EPOCH).as_secs()`). -/
structure Author where
  name : String
  email : String
  time : Nat
  time_offset : String
deriving DecidableEq, Repr

/-- `Author::write_to_buf`: `<name> <<email>> <epoch-seconds> <tz-offset>`. -/
def Author.write_to_buf (a : Author) : String :=
  a.name ++ " <" ++ a.email ++ "> " ++ toString a.time ++ " " ++ a.time_offset

/-- `Commit` from `commit.rs` (the field is spelled `commiter` in the source). -/
structure Commit where
  tree_sha : String
  parent : Option String
  author : Author
  commiter : Author
  message : String
deriving DecidableEq, Repr

/-- `Commit::to_bytes`.  Note two facts taken verbatim from the source:
the fourth line is spelled `commiter `, and it is written from
`self.author`, not from the `commiter` field. -/
def Commit.to_bytes (c : Commit) : String :=
  "tree " ++ c.tree_sha ++ "\n"
    ++ (match c.parent with
        | some p => "parent " ++ p ++ "\n"
        | none => "")
    ++ "author " ++ c.author.write_to_buf ++ "\n"
    ++ "commiter " ++ c.author.write_to_buf ++ "\n"
    ++ "\n"
    ++ c.message ++ "\n"

/-- `PackEntryType` from `http_protocol.rs`. -/
inductive PackEntryType
  | OBJ_COMMIT
  | OBJ_TREE
  | OBJ_BLOB
  | OBJ_TAG
  | OBJ_OFS_DELTA
  | OBJ_REF_DELTA
deriving DecidableEq, Repr

/-- `TryFrom<u8> for PackEntryType`: 0 is forbidden, 5 reserved, the rest
map to the six constructors; values above 7 cannot occur at the call site
(the input is masked with `0b0111`) and hit `unreachable!`. -/
def PackEntryType.tryFrom (v : Nat) : Except GitErr PackEntryType :=
  match v with
  | 0 => .error .forbiddenPackType
  | 1 => .ok .OBJ_COMMIT
  | 2 => .ok .OBJ_TREE
  | 3 => .ok .OBJ_BLOB
  | 4 => .ok .OBJ_TAG
  | 5 => .error .reservedPackType
  | 6 => .ok .OBJ_OFS_DELTA
  | 7 => .ok .OBJ_REF_DELTA
  | _ + 8 => .error .unreachableValue

/-- `GitHttpClient::load_varint`: MSB-continuation little-endian 7-bit
groups accumulated into a `u32` (`u32` wrapping addition and, in a release
build, shift masking, hence the `% 2 ^ 32` and `% 32`); reading past the
end of the input is a slice-index panic, modelled as `none`. -/
def load_varint : List Nat → Nat → Nat → Option (Nat × List Nat)
  | [], _, _ => none
  | b :: rest, val, shift =>
    let val2 := (val + (b % 128) <<< (shift % 32)) % 2 ^ 32
    if 128 ≤ b then load_varint rest val2 (shift + 7)
    else some (val2, rest)

/-- The per-entry size header decoding of `parse_pkt_lines`: type from
bits 4-6 of the first byte, low size nibble from bits 0-3, and if the MSB
of the first byte is set, `load_varint` of the following bytes shifted
left by 4 is added (`u32` arithmetic). -/
def parseEntryHeader (rest : List Nat) : Except GitErr (PackEntryType × Nat × List Nat) :=
  match rest with
  | [] => .error .indexOutOfBounds
  | b :: tail =>
    match PackEntryType.tryFrom ((b >>> 4) % 8) with
    | .error e => .error e
    | .ok t =>
      if 128 ≤ b then
        match load_varint tail 0 0 with
        | none => .error .indexOutOfBounds
        | some (v, tail2) => .ok (t, (b % 16 + (v <<< 4) % 2 ^ 32) % 2 ^ 32, tail2)
      else .ok (t, b % 16, tail)

/-- What `parse_pkt_lines` does with one pack entry of a given type,
assuming the zlib inflation of the entry body and the inflated-size check
succeed: types 1-3 construct an `Object` of the matching kind and persist
it; type 4 reaches `todo!()` in the kind match (a panic, no object is
persisted); type 6 reaches `todo!("OFS_DELTA object")` (a panic); type 7
runs the ref-delta reconstruction. -/
inductive PackEntryOutcome
  | persisted (kind : ObjectKind)
  | todoUnimplemented
  | refDeltaApplied
deriving DecidableEq, Repr

/-- Dispatch of the `match pack_entry_type` arms in `parse_pkt_lines`. -/
def packEntryDispatch : PackEntryType → PackEntryOutcome
  | .OBJ_COMMIT => .persisted .Commit
  | .OBJ_TREE => .persisted .Tree
  | .OBJ_BLOB => .persisted .Blob
  | .OBJ_TAG => .todoUnimplemented
  | .OBJ_OFS_DELTA => .todoUnimplemented
  | .OBJ_REF_DELTA => .refDeltaApplied

/-- Combined per-entry type handling: `PackEntryType::try_from` on the
3-bit type value, then the match arms of `parse_pkt_lines`. -/
def packEntryOutcome (v : Nat) : Except GitErr PackEntryOutcome :=
  match PackEntryType.tryFrom v with
  | .error e => .error e
  | .ok t => .ok (packEntryDispatch t)

/-- One gated-byte accumulation loop of the COPY instruction decoder
(`for i in 0..count`): when bit `bitBase + i` of `op` is set, one byte is
consumed from the delta and contributes shifted left by `i * 8`; a clear
bit contributes nothing and consumes nothing.  Reading past the end of
the delta is a slice-index panic (`none`).  The contributions of at most
four distinct byte positions of a `u32` cannot overflow, so plain `Nat`
addition is exact for byte inputs. -/
def copyFieldGo (op bitBase : Nat) : Nat → Nat → Nat → List Nat → Option (Nat × List Nat)
  | _, 0, acc, delta => some (acc, delta)
  | i, count + 1, acc, delta =>
    if op.testBit (bitBase + i) then
      match delta with
      | [] => none
      | b :: rest => copyFieldGo op bitBase (i + 1) count (acc + b <<< (i * 8)) rest
    else copyFieldGo op bitBase (i + 1) count acc delta

/-- The COPY instruction of the delta decoder (leading byte `op` with MSB
set, already consumed): offset from up to four bytes gated by bits 0-3,
length from up to three bytes gated by bits 4-6, then emit
`source.data[offset..offset + len]` (`u32` addition for the slice end;
an out-of-range slice is a panic).  Returns the emitted bytes and the
remaining delta. -/
def copyInstr (op : Nat) (delta source : List Nat) : Option (List Nat × List Nat) :=
  match copyFieldGo op 0 0 4 0 delta with
  | none => none
  | some (offset, d1) =>
    match copyFieldGo op 4 0 3 0 d1 with
    | none => none
    | some (len, d2) =>
      let stop := (offset + len) % 2 ^ 32
      if offset ≤ stop ∧ stop ≤ source.length then
        some (((source.drop offset).take (stop - offset)), d2)
      else none

/-- `Ref` from `http_protocol.rs`; `id` is the 40 hex bytes `[u8; 40]`. -/
structure Ref where
  name : String
  id : List Nat
  peeled_ref : Option (List Nat)
deriving DecidableEq, Repr

/-- How the clone command in `main.rs` ends after `fetch_refs` returns:
either `repo.checkout` was invoked with the UTF-8 string of a digest, or
`main` fell through and returned `Ok(())` without any checkout. -/
inductive CloneTail
  | checkedOut (digestHex : List Nat)
  | completedNoCheckout
deriving DecidableEq, Repr

/-- The `if let Some(r) = ref_info.refs.first()` tail of `Commands::Clone`
in `main.rs`: an empty ref list bails with `Missing HEAD reference`; a
first ref named `HEAD` is checked out (after the `String::from_utf8`
conversion of its id, whose failure propagates); a first ref with any
other name falls through and the command completes with no checkout. -/
def cloneHeadStep (refs : List Ref) : Except GitErr CloneTail :=
  match refs with
  | [] => .error .missingHeadRef
  | r :: _ =>
    if r.name = "HEAD" then
      if utf8Valid r.id then .ok (.checkedOut r.id) else .error .utf8Error
    else .ok .completedNoCheckout

instance {ε α : Type} [DecidableEq ε] [DecidableEq α] : DecidableEq (Except ε α) :=
  fun x y =>
    match x, y with
    | .ok a, .ok b =>
      if h : a = b then isTrue (by rw [h]) else isFalse (by simp [h])
    | .error a, .error b =>
      if h : a = b then isTrue (by rw [h]) else isFalse (by simp [h])
    | .ok _, .error _ => isFalse (by simp)
    | .error _, .ok _ => isFalse (by simp)

/-- Well-formedness of a tree entry as produced by `Tree::create`: the mode
and name are the bytes of Rust `String`s (hence valid UTF-8 around the
serialized space), the mode contains neither NUL nor space, the name
contains no NUL, and the reference holds a raw 20-byte digest. -/
def wfTreeEntry (e : TreeEntry) : Bool :=
  e.mode.all (fun b => b != 0 && b != 32) &&
    e.name.all (fun b => b != 0) &&
    utf8Valid (e.mode ++ 32 :: e.name) &&
    e.reference.length == 20

/-- Little-endian base-128 value of the low 7 bits of a byte list. -/
def varintVal : List Nat → Nat
  | [] => 0
  | b :: rest => b % 128 + 128 * varintVal rest

/-- A well-formed MSB-continuation varint byte sequence: at least one byte,
every byte except the last has the MSB set, the last does not. -/
def properVarint : List Nat → Bool
  | [] => false
  | [b] => b < 128
  | b :: rest => 128 ≤ b && b < 256 && properVarint rest

/-- The empty object store. -/
def emptyStore : Store := fun _ => none

/-- Concrete object used to instantiate the round-trip theorem: the blob
`hello\n` under its canonical digest (seed scenario S1). -/
def objW : Object :=
  ⟨"ce013625030ba8dba906f756967f9e9ca394464a", ⟨.Blob, 6⟩, strBytes "hello\n"⟩

/-- Concrete two-entry tree (sorted by name) used to instantiate the tree
round-trip theorem. -/
def treeW : Tree :=
  ⟨[⟨strBytes "100644", strBytes "a.txt", List.replicate 20 7⟩,
    ⟨strBytes "40000", strBytes "dir", List.replicate 20 9⟩]⟩

/-- Concrete commit with distinct author and committer data, exhibiting the
committer line the serializer actually emits. -/
def commitW : Commit :=
  ⟨"4b825dc642cb6eb9a060e54bf8d69288fbee4904", none,
   ⟨"Bob", "bob@example.com", 1700000000, "+0200"⟩,
   ⟨"Alice", "alice@example.com", 1700000001, "+0100"⟩,
   "init"⟩

/-- Concrete tree entry of mode `120000` whose reference field holds the
raw link-target bytes `abc`. -/
def symlinkEntryW : TreeEntry :=
  ⟨strBytes "120000", strBytes "lnk", strBytes "abc"⟩

/-- A 40-byte hex digest used in clone counterexamples. -/
def digestW : List Nat := strBytes "49f02acd2a49a8a6ffcebb61731972c5b36ee506"

theorem takeWhile_nonzero_append (xs ys : List Nat) (h : ∀ x ∈ xs, x ≠ 0) :
    (xs ++ 0 :: ys).takeWhile (fun b => b ≠ 0) = xs := by
  induction xs with
  | nil => simp [List.takeWhile]
  | cons a t ih =>
    have ha : a ≠ 0 := h a (List.mem_cons_self a t)
    have ht := ih fun x hx => h x (List.mem_cons_of_mem a hx)
    simp only [List.cons_append, List.takeWhile_cons, decide_not, ha, decide_False,
      Bool.not_false, if_true]
    simpa using ht

theorem dropWhile_nonzero_append (xs ys : List Nat) (h : ∀ x ∈ xs, x ≠ 0) :
    (xs ++ 0 :: ys).dropWhile (fun b => b ≠ 0) = 0 :: ys := by
  induction xs with
  | nil => simp [List.dropWhile]
  | cons a t ih =>
    have ha : a ≠ 0 := h a (List.mem_cons_self a t)
    have ht := ih fun x hx => h x (List.mem_cons_of_mem a hx)
    simp only [List.cons_append, List.dropWhile_cons, decide_not, ha, decide_False,
      Bool.not_false, if_true]
    simpa using ht

theorem rsplitOnceAt_eq_none (sep : Nat) (l : List Nat) (h : sep ∉ l) :
    rsplitOnceAt sep l = none := by
  induction l with
  | nil => rfl
  | cons a t ih =>
    have h1 : sep ∉ t := fun hx => h (List.mem_cons_of_mem a hx)
    have h2 : a ≠ sep := fun e => h (e ▸ List.mem_cons_self a t)
    simp [rsplitOnceAt, ih h1, h2]

theorem rsplitOnceAt_append (sep : Nat) (a b : List Nat) (hb : sep ∉ b) :
    rsplitOnceAt sep (a ++ sep :: b) = some (a, b) := by
  induction a with
  | nil => simp [rsplitOnceAt, rsplitOnceAt_eq_none sep b hb]
  | cons x t ih => simp [rsplitOnceAt, ih]

theorem splitOnceAt_append (sep : Nat) (a b : List Nat) (ha : sep ∉ a) :
    splitOnceAt sep (a ++ sep :: b) = some (a, b) := by
  induction a with
  | nil => simp [splitOnceAt]
  | cons x t ih =>
    have h1 : sep ∉ t := fun hx => ha (List.mem_cons_of_mem x hx)
    have h2 : x ≠ sep := fun e => ha (e ▸ List.mem_cons_self x t)
    simp [splitOnceAt, h2, ih h1]

theorem utf8ValidGo_ascii (fuel : Nat) :
    ∀ l : List Nat, l.length ≤ fuel → (∀ b ∈ l, b ≤ 127) → utf8ValidGo fuel l = true := by
  induction fuel with
  | zero =>
    intro l hf _
    cases l with
    | nil => rfl
    | cons a t => simp at hf
  | succ f ih =>
    intro l hf h
    cases l with
    | nil => rfl
    | cons a t =>
      have ha : a ≤ 127 := h a (List.mem_cons_self a t)
      simp only [utf8ValidGo]
      rw [if_pos ha]
      exact ih t (by simp at hf; omega) fun b hb => h b (List.mem_cons_of_mem a hb)

theorem utf8Valid_ascii (l : List Nat) (h : ∀ b ∈ l, b ≤ 127) : utf8Valid l = true :=
  utf8ValidGo_ascii l.length l le_rfl h

theorem toDecimal_mem (n : Nat) : ∀ b ∈ toDecimal n, 48 ≤ b ∧ b ≤ 57 := by
  intro b hb
  unfold toDecimal at hb
  by_cases h : n = 0
  · simp [h] at hb
    omega
  · simp only [h, if_false, List.mem_map, List.mem_reverse] at hb
    obtain ⟨d, hd, rfl⟩ := hb
    have : d < 10 := Nat.digits_lt_base (by norm_num) hd
    omega

theorem stripPlusSign_eq_self (l : List Nat) (h : ∀ b ∈ l, b ≠ 43) :
    stripPlusSign l = l := by
  cases l with
  | nil => rfl
  | cons b r => simp [stripPlusSign, h b (List.mem_cons_self b r)]

theorem parseDigits_spec (ds : List Nat) (acc : Nat) (hds : ∀ d ∈ ds, d < 10)
    (h : acc * 10 ^ ds.length + Nat.ofDigits 10 ds.reverse < 2 ^ 64) :
    parseDigits (ds.map (· + 48)) acc
      = some (acc * 10 ^ ds.length + Nat.ofDigits 10 ds.reverse) := by
  induction ds generalizing acc with
  | nil => simp [parseDigits]
  | cons d t ih =>
    have hd : d < 10 := hds d (List.mem_cons_self d t)
    have hdt : ∀ x ∈ t, x < 10 := fun x hx => hds x (List.mem_cons_of_mem d hx)
    have hval : digitVal (d + 48) = some d := by
      unfold digitVal
      rw [if_pos (show 48 ≤ d + 48 ∧ d + 48 ≤ 57 by omega), Nat.add_sub_cancel]
    have hofd : Nat.ofDigits 10 (d :: t).reverse
        = Nat.ofDigits 10 t.reverse + 10 ^ t.length * d := by
      rw [List.reverse_cons, Nat.ofDigits_append, List.length_reverse,
        Nat.ofDigits_singleton]
    have hrearr : acc * 10 ^ (d :: t).length + Nat.ofDigits 10 (d :: t).reverse
        = (acc * 10 + d) * 10 ^ t.length + Nat.ofDigits 10 t.reverse := by
      rw [hofd, List.length_cons, pow_succ]
      ring
    have hguard : acc * 10 + d < 2 ^ 64 := by
      have h1 : 1 ≤ 10 ^ t.length := Nat.one_le_pow _ _ (by norm_num)
      have h2 : acc * 10 + d ≤ (acc * 10 + d) * 10 ^ t.length :=
        Nat.le_mul_of_pos_right _ (by omega)
      omega
    have hstep : parseDigits ((d + 48) :: t.map (· + 48)) acc
        = parseDigits (t.map (· + 48)) (acc * 10 + d) := by
      simp only [parseDigits, hval]
      rw [if_pos hguard]
    rw [List.map_cons, hstep, ih (acc * 10 + d) hdt (by omega), hrearr]

theorem parseUsize_toDecimal (n : Nat) (h : n < 2 ^ 64) :
    parseUsize (toDecimal n) = some n := by
  by_cases h0 : n = 0
  · subst h0
    rfl
  · have hne : Nat.digits 10 n ≠ [] := Nat.digits_ne_nil_iff_ne_zero.mpr h0
    have hd43 : ∀ b ∈ toDecimal n, b ≠ 43 := by
      intro b hb
      have := toDecimal_mem n b hb
      omega
    unfold parseUsize
    rw [stripPlusSign_eq_self _ hd43]
    have hform : toDecimal n = ((Nat.digits 10 n).reverse).map (· + 48) := by
      unfold toDecimal
      rw [if_neg h0]
    have hempty : (toDecimal n).isEmpty = false := by
      rw [hform]
      simp [List.isEmpty_eq_false, hne]
    rw [hempty]
    simp only [Bool.false_eq_true, if_false]
    rw [hform]
    rw [parseDigits_spec ((Nat.digits 10 n).reverse) 0
      (fun d hd => Nat.digits_lt_base (by norm_num) (List.mem_reverse.mp hd))
      (by simpa [List.reverse_reverse, Nat.ofDigits_digits] using h)]
    simp [List.reverse_reverse, Nat.ofDigits_digits]

theorem kindFromBytes_asBytes (k : ObjectKind) : kindFromBytes k.asBytes = .ok k := by
  cases k <;> rfl

theorem asBytes_bounds (k : ObjectKind) : ∀ b ∈ k.asBytes, b ≠ 0 ∧ b ≤ 127 ∧ b ≠ 32 := by
  cases k <;> decide

theorem headerBody_bounds (k : ObjectKind) (n : Nat) :
    ∀ b ∈ k.asBytes ++ 32 :: toDecimal n, b ≠ 0 ∧ b ≤ 127 := by
  intro b hb
  rcases List.mem_append.mp hb with h1 | h1
  · exact ⟨(asBytes_bounds k b h1).1, (asBytes_bounds k b h1).2.1⟩
  · rcases List.mem_cons.mp h1 with rfl | h2
    · omega
    · have := toDecimal_mem n b h2
      omega

theorem tryFromBytes_canonical (k : ObjectKind) (n : Nat) (h : n < 2 ^ 64) :
    ObjectHeader.tryFromBytes (k.asBytes ++ 32 :: toDecimal n) = .ok ⟨k, n⟩ := by
  have hutf : utf8Valid (k.asBytes ++ 32 :: toDecimal n) = true :=
    utf8Valid_ascii _ fun b hb => (headerBody_bounds k n b hb).2
  have hr : rsplitOnceAt 32 (k.asBytes ++ 32 :: toDecimal n)
      = some (k.asBytes, toDecimal n) := by
    apply rsplitOnceAt_append
    intro hmem
    have := toDecimal_mem n 32 hmem
    omega
  simp [ObjectHeader.tryFromBytes, hutf, hr, kindFromBytes_asBytes,
    parseUsize_toDecimal n h]

theorem readBytes_canonical (hash : String) (k : ObjectKind) (n : Nat) (data : List Nat)
    (h : n < 2 ^ 64) :
    Object.readBytes hash (ObjectHeader.asBytes ⟨k, n⟩ ++ data)
      = .ok ⟨hash, ⟨k, n⟩, data⟩ := by
  have heq : ObjectHeader.asBytes ⟨k, n⟩ ++ data
      = (k.asBytes ++ 32 :: toDecimal n) ++ 0 :: data := by
    simp [ObjectHeader.asBytes]
  rw [heq]
  have hpre : ∀ b ∈ k.asBytes ++ 32 :: toDecimal n, b ≠ 0 :=
    fun b hb => (headerBody_bounds k n b hb).1
  unfold Object.readBytes
  rw [takeWhile_nonzero_append _ _ hpre, dropWhile_nonzero_append _ _ hpre,
    tryFromBytes_canonical k n h]
  simp

/-- Claim C1: writing any object (of any of the three kinds, with any
declared length and payload) to the store and reading it back under its
own digest returns the object unchanged: same kind, same declared
length, same payload bytes, same hash.  The only hypothesis is that the
declared length fits in a `usize`, which holds for every `Vec` length. -/
theorem read_write_roundtrip (st : Store) (o : Object)
    (h : o.header.data_length < 2 ^ 64) :
    Object.read (Object.write st o) o.hash = Except.ok o := by
  have hw : Object.write st o o.hash = some (o.header.asBytes ++ o.data) := by
    unfold Object.write
    simp
  unfold Object.read
  rw [hw]
  exact readBytes_canonical o.hash o.header.kind o.header.data_length o.data h

/-- Witness for C1: the round trip at the concrete blob `hello\n` (seed
scenario S1) stored in the empty store. -/
theorem read_write_roundtrip_witness :
    objW.header.data_length < 2 ^ 64 ∧
      Object.read (Object.write emptyStore objW) objW.hash = Except.ok objW :=
  ⟨by decide, read_write_roundtrip emptyStore objW (by decide)⟩

theorem readBytes_hash_from_argument (h h2 : String) (c : List Nat) :
    Object.readBytes h c
      = Except.map (fun o => ⟨h, o.header, o.data⟩) (Object.readBytes h2 c) := by
  unfold Object.readBytes
  cases ObjectHeader.tryFromBytes (c.takeWhile fun b => decide (b ≠ 0)) <;> rfl

/-- Claim C10: `Object::read` copies the argument digest into the returned
object's `hash` field verbatim and never recomputes or compares the SHA-1
of the decompressed contents: over a store holding the same file contents
`c` at every path, reading under any digest `h` succeeds or fails exactly
as under any other digest `h2`, returns the same header and payload, and
yields `hash = h` — in particular a stored file whose contents hash to a
digest different from its path is returned without error. -/
theorem read_hash_taken_from_argument (h h2 : String) (c : List Nat) :
    Object.read (fun _ => some c) h
      = Except.map (fun o => ⟨h, o.header, o.data⟩) (Object.read (fun _ => some c) h2) :=
  readBytes_hash_from_argument h h2 c

theorem length_takeWhile_le' (p : Nat → Bool) (l : List Nat) :
    (l.takeWhile p).length ≤ l.length := by
  conv_rhs => rw [← List.takeWhile_append_dropWhile p l]
  rw [List.length_append]
  exact Nat.le_add_right _ _

theorem drop_after_sentinel (xs ys : List Nat) :
    (xs ++ 0 :: ys).drop (xs.length + 1) = ys := by
  have h1 : xs ++ 0 :: ys = (xs ++ [0]) ++ ys := by simp
  have h2 : (xs ++ [0]).length = xs.length + 1 := by simp
  rw [h1, ← h2, List.drop_left]

theorem treeStep_entry (e : TreeEntry) (rest : List Nat)
    (hwf : wfTreeEntry e = true) :
    treeStep (e.toBytes ++ rest) = .ok (some (e, rest)) := by
  have hc := hwf
  simp only [wfTreeEntry, Bool.and_eq_true, List.all_eq_true, bne_iff_ne, ne_eq,
    beq_iff_eq] at hc
  obtain ⟨⟨⟨hmode, hname⟩, hutf⟩, href⟩ := hc
  have hsh : e.toBytes ++ rest = (e.mode ++ 32 :: e.name) ++ 0 :: (e.reference ++ rest) := by
    simp [TreeEntry.toBytes]
  have hprenz : ∀ b ∈ e.mode ++ 32 :: e.name, b ≠ 0 := by
    intro b hb
    rcases List.mem_append.mp hb with h1 | h1
    · exact (hmode b h1).1
    · rcases List.mem_cons.mp h1 with rfl | h2
      · omega
      · exact hname b h2
  have hm32 : 32 ∉ e.mode := fun hx => (hmode 32 hx).2 rfl
  have htw := takeWhile_nonzero_append (e.mode ++ 32 :: e.name) (e.reference ++ rest) hprenz
  have hdr := drop_after_sentinel (e.mode ++ 32 :: e.name) (e.reference ++ rest)
  have hlen : ¬ ((e.reference ++ rest).length < 20) := by simp [href]
  rw [hsh]
  unfold treeStep
  rw [htw, hdr]
  have hne : (e.mode ++ 32 :: e.name).length
      ≠ ((e.mode ++ 32 :: e.name) ++ 0 :: (e.reference ++ rest)).length := by
    simp
  rw [if_neg hne, if_pos hutf]
  simp only [splitOnceAt_append 32 e.mode e.name hm32]
  have htake : (e.reference ++ rest).take 20 = e.reference := List.take_left' href
  have hdrop : (e.reference ++ rest).drop 20 = rest := List.drop_left' href
  rw [if_neg hlen, htake, hdrop]

theorem treeStep_rest_shorter {data : List Nat} {e : TreeEntry} {rest : List Nat}
    (h : treeStep data = .ok (some (e, rest))) : rest.length < data.length := by
  unfold treeStep at h
  by_cases h1 : (data.takeWhile (fun b => b ≠ 0)).length = data.length
  · rw [if_pos h1] at h
    exact absurd h (by simp)
  · rw [if_neg h1] at h
    by_cases h2 : utf8Valid (data.takeWhile (fun b => b ≠ 0)) = true
    · rw [if_pos h2] at h
      cases h3 : splitOnceAt 32 (data.takeWhile (fun b => b ≠ 0)) with
      | none =>
        simp only [h3] at h
        exact absurd h (by simp)
      | some p =>
        obtain ⟨mode, name⟩ := p
        simp only [h3] at h
        by_cases h4 : (data.drop ((data.takeWhile (fun b => b ≠ 0)).length + 1)).length < 20
        · rw [if_pos h4] at h
          exact absurd h (by simp)
        · rw [if_neg h4] at h
          simp only [Except.ok.injEq, Option.some.injEq, Prod.mk.injEq] at h
          obtain ⟨_, hrest⟩ := h
          have hple : (data.takeWhile (fun b => b ≠ 0)).length ≤ data.length :=
            length_takeWhile_le' _ _
          rw [← hrest]
          simp only [List.length_drop]
          omega
    · rw [if_neg h2] at h
      exact absurd h (by simp)

theorem parseTreeGo_fuel (n : Nat) :
    ∀ (f1 f2 : Nat) (data : List Nat), data.length ≤ n →
      data.length < f1 → data.length < f2 → parseTreeGo f1 data = parseTreeGo f2 data := by
  induction n with
  | zero =>
    intro f1 f2 data hn h1 h2
    cases f1 with
    | zero => exact absurd h1 (by omega)
    | succ a =>
      cases f2 with
      | zero => exact absurd h2 (by omega)
      | succ b =>
        have hdata : data = [] := List.length_eq_zero.mp (by omega)
        subst hdata
        rfl
  | succ n ih =>
    intro f1 f2 data hn h1 h2
    cases f1 with
    | zero => exact absurd h1 (by omega)
    | succ a =>
      cases f2 with
      | zero => exact absurd h2 (by omega)
      | succ b =>
        simp only [parseTreeGo]
        split
        case h_1 => rfl
        case h_2 => rfl
        case h_3 e rest heq =>
          have hr := treeStep_rest_shorter heq
          rw [ih a b rest (by omega) (by omega) (by omega)]

theorem parseTreeData_cons (e : TreeEntry) (rest : List Nat) (hwf : wfTreeEntry e = true) :
    parseTreeData (e.toBytes ++ rest) = (parseTreeData rest).map (e :: ·) := by
  have hlen : rest.length < (e.toBytes ++ rest).length := by
    have : 0 < e.toBytes.length := by
      simp [TreeEntry.toBytes]
    simp only [List.length_append]
    omega
  have h2 : parseTreeData (e.toBytes ++ rest)
      = match parseTreeGo ((e.toBytes ++ rest).length) rest with
        | .error e2 => .error e2
        | .ok entries => .ok (e :: entries) := by
    unfold parseTreeData
    simp only [parseTreeGo, treeStep_entry e rest hwf]
  rw [h2, parseTreeGo_fuel rest.length ((e.toBytes ++ rest).length) (rest.length + 1) rest
    le_rfl hlen (by omega)]
  show (match parseTreeData rest with
        | .error e2 => .error e2
        | .ok entries => .ok (e :: entries)) = (parseTreeData rest).map (e :: ·)
  cases parseTreeData rest <;> rfl

theorem parseTreeData_nil : parseTreeData [] = .ok [] := rfl

theorem takeWhile_nonzero_all (l : List Nat) (h : ∀ b ∈ l, b ≠ 0) :
    l.takeWhile (fun b => b ≠ 0) = l := by
  induction l with
  | nil => rfl
  | cons a t ih =>
    have ha : a ≠ 0 := h a (List.mem_cons_self a t)
    have ht := ih fun x hx => h x (List.mem_cons_of_mem a hx)
    simp only [List.takeWhile_cons, decide_not, ha, decide_False, Bool.not_false, if_true]
    simpa using ht

theorem parseTreeData_no_nul (frag : List Nat) (h : ∀ b ∈ frag, b ≠ 0) :
    parseTreeData frag = .ok [] := by
  have htw : frag.takeWhile (fun b => b ≠ 0) = frag := takeWhile_nonzero_all frag h
  have hstep : treeStep frag = .ok none := by
    unfold treeStep
    rw [if_pos (by rw [htw])]
  unfold parseTreeData
  simp only [parseTreeGo, hstep]

theorem parseTreeData_append (entries : List TreeEntry) (tail : List Nat)
    (hwf : ∀ e ∈ entries, wfTreeEntry e = true) :
    parseTreeData ((entries.map TreeEntry.toBytes).flatten ++ tail)
      = (parseTreeData tail).map (entries ++ ·) := by
  induction entries with
  | nil =>
    simp only [List.map_nil, List.flatten_nil, List.nil_append]
    cases parseTreeData tail <;> simp [Except.map]
  | cons e es ih =>
    have hwfe : wfTreeEntry e = true := hwf e (List.mem_cons_self e es)
    have hwfes : ∀ x ∈ es, wfTreeEntry x = true :=
      fun x hx => hwf x (List.mem_cons_of_mem e hx)
    rw [List.map_cons, List.flatten_cons, List.append_assoc,
      parseTreeData_cons e _ hwfe, ih hwfes]
    cases parseTreeData tail <;> simp [Except.map]

/-- Claim C2: parsing the bytes produced by `Tree::to_bytes` yields the
tree again with the entry list unchanged (same entries in the same
order; hence a name-sorted entry list stays name-sorted).  The
hypothesis is the well-formedness every entry built from the Rust data
model has: mode and name are `String`s (valid UTF-8), the mode contains
no NUL and no space, the name contains no NUL, and the reference is a
raw 20-byte digest. -/
theorem tree_roundtrip (t : Tree) (h : String) (n : Nat)
    (hwf : ∀ e ∈ t.entries, wfTreeEntry e = true) :
    Tree.tryFromObject ⟨h, ⟨.Tree, n⟩, t.to_bytes⟩ = .ok t := by
  have hparse : parseTreeData t.to_bytes = .ok t.entries := by
    have := parseTreeData_append t.entries [] hwf
    rw [List.append_nil] at this
    rw [Tree.to_bytes, this, parseTreeData_nil]
    simp [Except.map]
  unfold Tree.tryFromObject
  simp only [hparse]
  rfl

/-- Witness for C2: the round trip at a concrete sorted two-entry tree. -/
theorem tree_roundtrip_witness :
    (∀ e ∈ treeW.entries, wfTreeEntry e = true) ∧
      Tree.tryFromObject ⟨"t", ⟨.Tree, 74⟩, treeW.to_bytes⟩ = .ok treeW :=
  ⟨by decide, tree_roundtrip treeW "t" 74 (by decide)⟩

theorem treeStep_truncated (frag : List Nat)
    (h1 : (frag.takeWhile (fun b => b ≠ 0)).length ≠ frag.length)
    (h2 : frag.length < (frag.takeWhile (fun b => b ≠ 0)).length + 21) :
    ∃ e, treeStep frag = .error e := by
  unfold treeStep
  rw [if_neg h1]
  by_cases hutf : utf8Valid (frag.takeWhile (fun b => b ≠ 0)) = true
  · rw [if_pos hutf]
    cases hsplit : splitOnceAt 32 (frag.takeWhile (fun b => b ≠ 0)) with
    | none => exact ⟨.invalidEntryHeader, rfl⟩
    | some p =>
      obtain ⟨mode, name⟩ := p
      refine ⟨.indexOutOfBounds, ?_⟩
      have hshort : (frag.drop ((frag.takeWhile (fun b => b ≠ 0)).length + 1)).length < 20 := by
        simp only [List.length_drop]
        omega
      simp only [hsplit, if_pos hshort]
  · rw [if_neg hutf]
    exact ⟨.utf8Error, rfl⟩

theorem parseTreeData_truncated (frag : List Nat)
    (h1 : (frag.takeWhile (fun b => b ≠ 0)).length ≠ frag.length)
    (h2 : frag.length < (frag.takeWhile (fun b => b ≠ 0)).length + 21) :
    ∃ e, parseTreeData frag = .error e := by
  obtain ⟨e, he⟩ := treeStep_truncated frag h1 h2
  refine ⟨e, ?_⟩
  unfold parseTreeData
  simp only [parseTreeGo, he]

/-- Claim C8 counterexample: the payload `100644 f` is a single truncated
record (a mode and the start of a name, no NUL terminator, no digest),
yet the tree parser SUCCEEDS, returning a tree with no entries — the
loop breaks as soon as no NUL byte is found and silently drops the
trailing fragment, instead of returning an error as the claim states. -/
theorem tree_truncated_counterexample :
    Tree.tryFromObject ⟨"h", ⟨.Tree, 8⟩, strBytes "100644 f"⟩ = .ok ⟨[]⟩ := rfl

/-- Claim C8 as amended: for a tree payload consisting of well-formed
serialized entries followed by a truncated final record, the parser (a)
SUCCEEDS and silently ignores the truncated record whenever that record
contains no NUL byte, and (b) fails (UTF-8 error, malformed entry
header, or the out-of-bounds slice panic on the digest bytes) whenever
the record contains a NUL with fewer than 20 bytes after it. -/
theorem tree_truncated_amended (t : Tree) (h : String) (n : Nat) (frag : List Nat)
    (hwf : ∀ e ∈ t.entries, wfTreeEntry e = true) :
    ((∀ b ∈ frag, b ≠ 0) → frag ≠ [] →
        Tree.tryFromObject ⟨h, ⟨.Tree, n⟩, t.to_bytes ++ frag⟩ = .ok t)
      ∧ ((frag.takeWhile (fun b => b ≠ 0)).length ≠ frag.length →
          frag.length < (frag.takeWhile (fun b => b ≠ 0)).length + 21 →
          ∃ e, Tree.tryFromObject ⟨h, ⟨.Tree, n⟩, t.to_bytes ++ frag⟩ = .error e) := by
  have happ := parseTreeData_append t.entries frag hwf
  constructor
  · intro hnz _
    have hfrag : parseTreeData frag = .ok [] := parseTreeData_no_nul frag hnz
    unfold Tree.tryFromObject
    rw [Tree.to_bytes] at *
    simp only [happ, hfrag, Except.map]
    simp
  · intro h1 h2
    obtain ⟨e, he⟩ := parseTreeData_truncated frag h1 h2
    refine ⟨e, ?_⟩
    unfold Tree.tryFromObject
    rw [Tree.to_bytes] at *
    simp only [happ, he, Except.map]
    rfl

/-- Witness for the amended C8: a one-entry tree followed by (a) the
NUL-less fragment `10064` (parser succeeds, fragment dropped) and (b) the
fragment `100644 f` followed by a NUL and only three digest bytes
(parser fails). -/
theorem tree_truncated_amended_witness :
    Tree.tryFromObject
        ⟨"h", ⟨.Tree, 42⟩,
          Tree.to_bytes ⟨[⟨strBytes "100644", strBytes "a", List.replicate 20 7⟩]⟩
            ++ strBytes "10064"⟩
      = .ok ⟨[⟨strBytes "100644", strBytes "a", List.replicate 20 7⟩]⟩ := by
  have h := tree_truncated_amended ⟨[⟨strBytes "100644", strBytes "a", List.replicate 20 7⟩]⟩
    "h" 42 (strBytes "10064") (by decide)
  exact h.1 (by decide) (by decide)

/-- Claim C3 (code-bug exhibit): `Commit::to_bytes` on a commit whose
author is Bob and whose `commiter` field is Alice.  The serialized
payload has the expected `tree`, `author`, blank and message lines, but
its fourth line is spelled `commiter ` (not `committer `) and repeats
the AUTHOR's name, email, timestamp and offset — Alice's data appears
nowhere.  The second conjunct shows the output differs from the payload
the claim describes (a `committer` line carrying the committer's own
data). -/
theorem commit_serialization_commiter :
    Commit.to_bytes commitW
        = "tree 4b825dc642cb6eb9a060e54bf8d69288fbee4904\nauthor Bob <bob@example.com> 1700000000 +0200\ncommiter Bob <bob@example.com> 1700000000 +0200\n\ninit\n"
      ∧ Commit.to_bytes commitW
        ≠ "tree 4b825dc642cb6eb9a060e54bf8d69288fbee4904\nauthor Bob <bob@example.com> 1700000000 +0200\ncommitter Alice <alice@example.com> 1700000001 +0100\n\ninit\n" :=
  ⟨rfl, by decide⟩

/-- Claim C4 (code-bug exhibit): for a mode-`120000` entry whose
reference field holds the raw link-target bytes `abc`, checkout creates
a symlink whose target is `616263` — the HEX ENCODING of the stored
bytes produced by `hex::encode(&entry.reference)` — and not the raw
bytes themselves as the claim states. -/
theorem checkout_symlink_target_hex :
    checkoutEntryAction symlinkEntryW
        = .ok (.createSymlink (strBytes "616263") (strBytes "lnk"))
      ∧ strBytes "616263" ≠ symlinkEntryW.reference :=
  ⟨rfl, by decide⟩

/-- Claim C5 (code-bug exhibit): a COPY instruction byte `0x80` (no
offset bytes, no length bytes present) decodes offset 0 and length 0 and
emits the EMPTY byte sequence for EVERY source — including a source of
65536 bytes or more, where the claim (and the pack delta format) require
the zero length field to mean `0x10000` and the emission of the nonempty
`source[0 : 0x10000]`; the decoder has no `0x10000` special case.  The
second conjunct checks the gated-byte half of the claim on the seed
instruction `0x91 0x03 0x02` over `abcdef`: present offset/length bytes
are honoured (`source[3:5] = de`), so only the zero-length case
diverges. -/
theorem copy_zero_length_emits_nothing :
    (∀ src : List Nat, copyInstr 128 [] src = some ([], []))
      ∧ copyInstr 145 [3, 2] (strBytes "abcdef") = some (strBytes "de", []) := by
  refine ⟨fun src => ?_, rfl⟩
  have h1 : copyFieldGo 128 0 0 4 0 [] = some (0, []) := rfl
  have h2 : copyFieldGo 128 4 0 3 0 [] = some (0, []) := rfl
  simp [copyInstr, h1, h2]

/-- Claim C7 counterexample: a type-4 (Tag) pack entry is accepted by
`PackEntryType::try_from` but its dispatch reaches the `todo!()` panic in
the kind match and persists nothing, contradicting the claim that types
1-4 are all accepted as plain objects with each persisted; a type-6
entry likewise reaches a `todo!` panic rather than returning an
unsupported-feature error. -/
theorem pack_type_counterexample :
    packEntryOutcome 4 = .ok .todoUnimplemented
      ∧ packEntryOutcome 6 = .ok .todoUnimplemented :=
  ⟨rfl, rfl⟩

/-- Claim C7 as amended: the decoder rejects type values 0 and 5 with an
error; accepts types 1-3 as plain objects, persisting each with the
matching kind; on type 4 (Tag) it passes type parsing but hits the
unimplemented `todo!()` panic instead of persisting; accepts type 7 as
ref-delta; and on every type-6 OfsDelta entry it fails by the explicit
unimplemented `todo!` panic rather than succeeding. -/
theorem pack_type_handling :
    packEntryOutcome 0 = .error .forbiddenPackType
      ∧ packEntryOutcome 1 = .ok (.persisted .Commit)
      ∧ packEntryOutcome 2 = .ok (.persisted .Tree)
      ∧ packEntryOutcome 3 = .ok (.persisted .Blob)
      ∧ packEntryOutcome 4 = .ok .todoUnimplemented
      ∧ packEntryOutcome 5 = .error .reservedPackType
      ∧ packEntryOutcome 6 = .ok .todoUnimplemented
      ∧ packEntryOutcome 7 = .ok .refDeltaApplied :=
  ⟨rfl, rfl, rfl, rfl, rfl, rfl, rfl, rfl⟩

/-- Claim C9 counterexample: when the advertisement's non-empty ref list
starts with a ref named `refs/heads/master` (not `HEAD`), the clone tail
COMPLETES SUCCESSFULLY performing no checkout — it does not fail with an
error as the claim states (the `Missing HEAD reference` bail is reached
only for an empty ref list). -/
theorem clone_non_head_counterexample :
    cloneHeadStep [⟨"refs/heads/master", digestW, none⟩] = .ok .completedNoCheckout := rfl

/-- Claim C9 as amended: an empty advertised ref list fails with the
missing-HEAD error; a first ref named `HEAD` has its digest checked out;
a non-empty list whose first ref has any other name completes
successfully with no checkout and no error. -/
theorem clone_head_dispatch (r : Ref) (rest : List Ref) :
    cloneHeadStep ([] : List Ref) = .error .missingHeadRef
      ∧ (r.name = "HEAD" → utf8Valid r.id = true →
          cloneHeadStep (r :: rest) = .ok (.checkedOut r.id))
      ∧ (r.name ≠ "HEAD" → cloneHeadStep (r :: rest) = .ok .completedNoCheckout) := by
  refine ⟨rfl, ?_, ?_⟩
  · intro h1 h2
    simp [cloneHeadStep, h1, h2]
  · intro h1
    simp [cloneHeadStep, h1]

/-- Witness for the amended C9 at concrete refs: a first ref named `HEAD`
is checked out; a first ref named `refs/heads/main` completes without
checkout. -/
theorem clone_head_dispatch_witness :
    cloneHeadStep [⟨"HEAD", digestW, none⟩] = .ok (.checkedOut digestW)
      ∧ cloneHeadStep [⟨"refs/heads/main", digestW, none⟩] = .ok .completedNoCheckout :=
  ⟨(clone_head_dispatch ⟨"HEAD", digestW, none⟩ []).2.1 rfl (by decide),
   (clone_head_dispatch ⟨"refs/heads/main", digestW, none⟩ []).2.2 (by decide)⟩

theorem load_varint_spec (ds : List Nat) :
    ∀ (rest : List Nat) (val shift : Nat),
      properVarint ds = true →
      shift + 7 * ds.length ≤ 28 →
      val + varintVal ds * 2 ^ shift < 2 ^ 32 →
      load_varint (ds ++ rest) val shift
        = some (val + varintVal ds * 2 ^ shift, rest) := by
  induction ds with
  | nil =>
    intro rest val shift hp _ _
    simp [properVarint] at hp
  | cons b tailds ih =>
    intro rest val shift hp hsh hov
    have hunfold : load_varint ((b :: tailds) ++ rest) val shift
        = if 128 ≤ b then
            load_varint (tailds ++ rest)
              ((val + (b % 128) <<< (shift % 32)) % 2 ^ 32) (shift + 7)
          else some ((val + (b % 128) <<< (shift % 32)) % 2 ^ 32, tailds ++ rest) := rfl
    have hshlt : shift < 32 := by
      have : 1 ≤ (b :: tailds).length := by simp
      omega
    cases tailds with
    | nil =>
      have hb : b < 128 := by simpa [properVarint] using hp
      have hvv : varintVal [b] = b % 128 := by simp [varintVal]
      rw [hvv] at hov
      rw [hunfold, if_neg (by omega : ¬ 128 ≤ b)]
      have e1 : (b % 128) <<< (shift % 32) = (b % 128) * 2 ^ shift := by
        rw [Nat.mod_eq_of_lt hshlt, Nat.shiftLeft_eq]
      rw [e1, Nat.mod_eq_of_lt hov, hvv]
      rfl
    | cons c tds =>
      have hp2 : (128 ≤ b ∧ b < 256) ∧ properVarint (c :: tds) = true := by
        simpa [properVarint, Bool.and_eq_true, and_assoc] using hp
      have hble : b % 128 ≤ varintVal (b :: c :: tds) := by
        have hv : varintVal (b :: c :: tds) = b % 128 + 128 * varintVal (c :: tds) := rfl
        omega
      have hstepbound : (b % 128) * 2 ^ shift ≤ varintVal (b :: c :: tds) * 2 ^ shift :=
        mul_le_mul_right' hble _
      rw [hunfold, if_pos hp2.1.1]
      have e1 : (val + (b % 128) <<< (shift % 32)) % 2 ^ 32
          = val + (b % 128) * 2 ^ shift := by
        rw [Nat.mod_eq_of_lt hshlt, Nat.shiftLeft_eq]
        exact Nat.mod_eq_of_lt (by omega)
      rw [e1]
      have hsplit : val + (b % 128) * 2 ^ shift + varintVal (c :: tds) * 2 ^ (shift + 7)
          = val + varintVal (b :: c :: tds) * 2 ^ shift := by
        have hv : varintVal (b :: c :: tds) = b % 128 + 128 * varintVal (c :: tds) := rfl
        have hpow : (2 : Nat) ^ (shift + 7) = 2 ^ shift * 128 := by
          rw [pow_add]
          norm_num
        rw [hv, hpow]
        ring
      rw [ih rest (val + (b % 128) * 2 ^ shift) (shift + 7) hp2.2
        (by simp [List.length_cons] at hsh ⊢; omega)
        (by rw [hsplit]; exact hov), hsplit]

theorem varintVal_enumFrom (ds : List Nat) :
    ∀ k : Nat,
      ((List.enumFrom k ds).map (fun p => p.2 % 128 * 2 ^ (4 + 7 * p.1))).sum
        = varintVal ds * 2 ^ (4 + 7 * k) := by
  induction ds with
  | nil =>
    intro k
    simp [varintVal]
  | cons b t ih =>
    intro k
    simp only [List.enumFrom, List.map_cons, List.sum_cons, ih (k + 1)]
    have h1 : (2 : Nat) ^ (4 + 7 * (k + 1)) = 2 ^ (4 + 7 * k) * 128 := by
      rw [show 4 + 7 * (k + 1) = (4 + 7 * k) + 7 by ring, pow_add]
      norm_num
    have hv : varintVal (b :: t) = b % 128 + 128 * varintVal t := rfl
    rw [h1, hv]
    ring

/-- Claim C6: the per-entry size header decodes the type from bits 4-6 of
the first byte and the low size nibble from bits 0-3, and, when the
continuation MSB of the first byte is set, each following varint byte
contributes its low 7 bits shifted left by 4, 11, 18, 25, … until a byte
with the MSB clear; the remaining input is left untouched.  The bounds
(at most four varint bytes, value below `2 ^ 28`) keep the `u32`
accumulation exact. -/
theorem pack_size_header (b : Nat) (ds rest : List Nat) (t : PackEntryType)
    (ht : PackEntryType.tryFrom ((b >>> 4) % 8) = .ok t)
    (hmsb : 128 ≤ b)
    (hp : properVarint ds = true)
    (hlen : ds.length ≤ 4)
    (hv : varintVal ds < 2 ^ 28) :
    parseEntryHeader (b :: (ds ++ rest))
      = .ok (t, b % 16 + ((ds.enum.map (fun p => p.2 % 128 * 2 ^ (4 + 7 * p.1))).sum),
          rest) := by
  have hvle : varintVal ds * 16 < 2 ^ 32 := by
    calc varintVal ds * 16 < 2 ^ 28 * 16 :=
        mul_lt_mul_of_pos_right hv (by norm_num)
      _ = 2 ^ 32 := by norm_num
  have hlv : load_varint (ds ++ rest) 0 0 = some (varintVal ds, rest) := by
    have h0 := load_varint_spec ds rest 0 0 hp (by omega)
      (by simpa using lt_trans hv (by norm_num : (2 : Nat) ^ 28 < 2 ^ 32))
    simpa using h0
  unfold parseEntryHeader
  simp only [ht, hlv]
  rw [if_pos hmsb]
  have e1 : (varintVal ds) <<< 4 = varintVal ds * 16 := by
    rw [Nat.shiftLeft_eq]
  have e3 : (varintVal ds * 16) % 2 ^ 32 = varintVal ds * 16 := Nat.mod_eq_of_lt hvle
  have e4 : (b % 16 + varintVal ds * 16) % 2 ^ 32 = b % 16 + varintVal ds * 16 := by
    apply Nat.mod_eq_of_lt
    have hb16 : b % 16 ≤ 15 := by omega
    have h2 : varintVal ds * 16 ≤ (2 ^ 28 - 1) * 16 :=
      mul_le_mul_right' (Nat.le_pred_of_lt hv) 16
    calc b % 16 + varintVal ds * 16 ≤ 15 + (2 ^ 28 - 1) * 16 := Nat.add_le_add hb16 h2
      _ < 2 ^ 32 := by norm_num
  rw [e1, e3, e4]
  have hsum : (ds.enum.map (fun p => p.2 % 128 * 2 ^ (4 + 7 * p.1))).sum
      = varintVal ds * 16 := by
    have := varintVal_enumFrom ds 0
    simpa using this
  rw [hsum]

/-- Witness for C6: the seed bytes `0x92 0x01` decode to a Commit entry of
uncompressed size 18 with no spare bytes. -/
theorem pack_size_header_witness :
    parseEntryHeader [146, 1] = .ok (.OBJ_COMMIT, 18, ([] : List Nat)) := by
  have h := pack_size_header 146 [1] [] .OBJ_COMMIT rfl (by omega) (by decide)
    (by decide) (by decide)
  simpa [List.enum, List.enumFrom] using h

end GitSpec
